import Mathlib

/-!
Verification of the incremental scrape-and-merge pipeline
(`sync-thoughts` script of the personal-website repository).

The JavaScript source is shallowly embedded: each source function becomes a
Lean definition with the same name, strings are Lean `String`s (lists of
characters), and the regex-based scanners of the source are embedded as
explicit character-list scanners that reproduce the regex engine's
leftmost, non-overlapping matching behaviour.
-/

set_option maxHeartbeats 1000000
set_option maxRecDepth 10000

/-- A scraped quote, as stored in `quotes.json`:
`{ text, edition, date }`. -/
structure Quote where
  text : String
  edition : String
  date : String
deriving DecidableEq

/-- The persisted store state `{ lastUpdated, quotes }`. -/
structure StoreState where
  lastUpdated : String
  quotes : List Quote
deriving DecidableEq

/-- The date of a quote. -/
def Quote.dateOf (q : Quote) : String := q.date

/-- Lexicographic strict comparison of character lists, as JavaScript
compares strings (`<` on code units; these strings are ASCII). -/
def jsLtb : List Char → List Char → Bool
  | [], [] => false
  | [], _ :: _ => true
  | _ :: _, [] => false
  | a :: as, b :: bs => if a < b then true else if b < a then false else jsLtb as bs

/-- The "not greater" comparator JavaScript's default `sort()` induces
on strings. -/
def jsLeb (s t : String) : Bool := ! jsLtb t.data s.data

theorem jsLtb_iff : ∀ (x y : List Char), jsLtb x y = true ↔ List.lt x y
  | [], [] => by
    simp only [jsLtb]
    constructor
    · intro h
      cases h
    · intro h
      cases h
  | [], b :: bs => by
    simp only [jsLtb]
    exact ⟨fun _ => List.lt.nil b bs, fun _ => trivial⟩
  | a :: as, [] => by
    simp only [jsLtb]
    constructor
    · intro h
      cases h
    · intro h
      cases h
  | a :: as, b :: bs => by
    simp only [jsLtb]
    by_cases hab : a < b
    · rw [if_pos hab]
      exact ⟨fun _ => List.lt.head as bs hab, fun _ => rfl⟩
    · rw [if_neg hab]
      by_cases hba : b < a
      · rw [if_pos hba]
        constructor
        · intro h
          cases h
        · intro h
          cases h with
          | head _ _ h' => exact absurd h' hab
          | tail h1 h2 h3 => exact absurd hba h2
      · rw [if_neg hba, jsLtb_iff as bs]
        constructor
        · intro h
          exact List.lt.tail hab hba h
        · intro h
          cases h with
          | head _ _ h' => exact absurd h' hab
          | tail _ _ h3 => exact h3

/-- `jsLeb` agrees with the linear order on `String`. -/
theorem jsLeb_iff (s t : String) : jsLeb s t = true ↔ s ≤ t := by
  constructor
  · intro h hlt
    have hb : jsLtb t.data s.data = true :=
      (jsLtb_iff _ _).mpr
        ((List.lt_iff_lex_lt _ _).mpr (String.lt_iff_toList_lt.mp hlt))
    rw [jsLeb, hb] at h
    cases h
  · intro h
    rw [jsLeb]
    cases hb : jsLtb t.data s.data with
    | false => rfl
    | true =>
      exact absurd
        (String.lt_iff_toList_lt.mpr ((List.lt_iff_lex_lt _ _).mp ((jsLtb_iff _ _).mp hb)))
        h

/-- Embedding of the merge-and-retention step of `main`
(source lines 164-173):

  const allQuotes = [...existing.quotes, ...newQuotes];
  const uniqueDates = [...new Set(allQuotes.map(q => q.date))].sort();
  const recentDates = new Set(uniqueDates.slice(-12));
  const trimmedQuotes = allQuotes.filter(q => recentDates.has(q.date));
  const latestDate = uniqueDates.length ? uniqueDates[uniqueDates.length - 1]
                                        : existing.lastUpdated;
  const output = { lastUpdated: latestDate, quotes: trimmedQuotes };

JavaScript's default `sort()` on ISO date strings is lexicographic
comparison of the strings, embedded as `List.insertionSort` with the
lexicographic `String` order.  `[...new Set(xs)].sort()` produces the
sorted duplicate-free list of the elements of `xs`, which is what
`insertionSort` of `dedup` produces (a sorted list without duplicates is
determined by its set of elements). -/
def mergeState (existing : StoreState) (newQuotes : List Quote) : StoreState :=
  let allQuotes := existing.quotes ++ newQuotes
  let uniqueDates :=
    List.insertionSort (fun a b : String => jsLeb a b = true)
      (allQuotes.map Quote.dateOf).dedup
  let recentDates := uniqueDates.drop (uniqueDates.length - 12)
  let trimmedQuotes := allQuotes.filter (fun q => decide (q.date ∈ recentDates))
  let latestDate := uniqueDates.getLastD existing.lastUpdated
  { lastUpdated := latestDate, quotes := trimmedQuotes }

/-- The store-state invariant stated in the spec (section 3):
`lastUpdated` is the maximum date among the stored quotes (vacuous when
there are no quotes), and at most 12 distinct dates are present. -/
def StoreInvariant (s : StoreState) : Prop :=
  (s.quotes ≠ [] →
    s.lastUpdated ∈ s.quotes.map Quote.dateOf ∧
      ∀ d ∈ s.quotes.map Quote.dateOf, d ≤ s.lastUpdated) ∧
  (s.quotes.map Quote.dateOf).dedup.length ≤ 12

section MergeLemmas

/-- The sorted distinct-date list used by `mergeState`. -/
def sortedDates (l : List Quote) : List String :=
  List.insertionSort (fun a b : String => jsLeb a b = true) (l.map Quote.dateOf).dedup

theorem sortedDates_sorted_leb (l : List Quote) :
    List.Sorted (fun a b : String => jsLeb a b = true) (sortedDates l) := by
  haveI : IsTotal String (fun a b : String => jsLeb a b = true) :=
    ⟨fun a b => by
      rcases le_total a b with h | h
      · exact Or.inl ((jsLeb_iff a b).mpr h)
      · exact Or.inr ((jsLeb_iff b a).mpr h)⟩
  haveI : IsTrans String (fun a b : String => jsLeb a b = true) :=
    ⟨fun a b c hab hbc => (jsLeb_iff a c).mpr
      (le_trans ((jsLeb_iff a b).mp hab) ((jsLeb_iff b c).mp hbc))⟩
  exact List.sorted_insertionSort _ _

theorem sortedDates_sorted (l : List Quote) :
    List.Sorted (fun a b : String => a ≤ b) (sortedDates l) :=
  (sortedDates_sorted_leb l).imp (fun h => (jsLeb_iff _ _).mp h)

theorem sortedDates_perm (l : List Quote) :
    (sortedDates l).Perm (l.map Quote.dateOf).dedup :=
  List.perm_insertionSort _ _

theorem sortedDates_nodup (l : List Quote) : (sortedDates l).Nodup :=
  ((sortedDates_perm l).nodup_iff).mpr (List.nodup_dedup _)

theorem mem_sortedDates {l : List Quote} {d : String} :
    d ∈ sortedDates l ↔ d ∈ l.map Quote.dateOf := by
  rw [(sortedDates_perm l).mem_iff, List.mem_dedup]

/-- Any member of a `≤`-sorted list is at most its `getLastD`. -/
theorem sorted_le_getLastD : ∀ (l : List String) (d0 : String),
    List.Sorted (fun a b : String => a ≤ b) l → ∀ x ∈ l, x ≤ l.getLastD d0
  | [], _, _, x, hx => absurd hx (by simp)
  | [a], d0, _, x, hx => by
    simp only [List.mem_singleton] at hx
    subst hx
    simp [List.getLastD_cons]
  | a :: b :: t, d0, hs, x, hx => by
    rw [List.getLastD_cons]
    rcases List.mem_cons.mp hx with h1 | h2
    · subst h1
      exact le_trans (List.rel_of_sorted_cons hs b (by simp))
        (sorted_le_getLastD (b :: t) x hs.of_cons b (by simp))
    · exact sorted_le_getLastD (b :: t) a hs.of_cons x h2

/-- `getLastD` of a nonempty list is a member. -/
theorem getLastD_mem : ∀ (l : List String) (d : String), l ≠ [] → l.getLastD d ∈ l
  | [], _, h => absurd rfl h
  | [a], _, _ => by simp [List.getLastD_cons]
  | a :: b :: t, _, _ => by
    rw [List.getLastD_cons]
    exact List.mem_cons_of_mem a (getLastD_mem (b :: t) a (by simp))

/-- A duplicate-free list contained in another list is no longer than it. -/
theorem nodup_subset_length_le {l l' : List String} (hn : l.Nodup)
    (hsub : l ⊆ l') : l.length ≤ l'.length := by
  calc l.length = l.toFinset.card := (List.toFinset_card_of_nodup hn).symm
    _ ≤ l'.toFinset.card := Finset.card_le_card (fun x hx => by
        rw [List.mem_toFinset] at hx ⊢
        exact hsub hx)
    _ ≤ l'.length := List.toFinset_card_le _

theorem length_drop_12_le (l : List String) :
    (l.drop (l.length - 12)).length ≤ 12 := by
  rw [List.length_drop]
  omega

/-- The retained-window list of `mergeState`. -/
def recentWindow (l : List Quote) : List String :=
  (sortedDates l).drop ((sortedDates l).length - 12)

theorem mergeState_quotes (existing : StoreState) (newQuotes : List Quote) :
    (mergeState existing newQuotes).quotes =
      (existing.quotes ++ newQuotes).filter
        (fun q => decide (q.date ∈ recentWindow (existing.quotes ++ newQuotes))) := rfl

theorem mergeState_lastUpdated (existing : StoreState) (newQuotes : List Quote) :
    (mergeState existing newQuotes).lastUpdated =
      (sortedDates (existing.quotes ++ newQuotes)).getLastD existing.lastUpdated := rfl

/-- Dates in the retained window have fewer than 12 distinct dates above them. -/
theorem recentWindow_count_gt {l : List Quote} {d : String}
    (hd : d ∈ recentWindow l) :
    ((l.map Quote.dateOf).dedup.filter (fun e => decide (d < e))).length < 12 := by
  set k := (sortedDates l).length - 12 with hk
  have hsplit : sortedDates l = (sortedDates l).take k ++ (sortedDates l).drop k :=
    (List.take_append_drop _ _).symm
  have hsorted := sortedDates_sorted l
  have hnodup := sortedDates_nodup l
  -- every element of the dropped prefix is ≤ every element of the window
  have hle : ∀ x ∈ (sortedDates l).take k, ∀ y ∈ (sortedDates l).drop k, x ≤ y := by
    intro x hx y hy
    have := List.pairwise_append.mp (hsplit ▸ hsorted)
    exact this.2.2 x hx y hy
  -- so no element of the prefix is strictly greater than d
  have hfilter_eq :
      ((sortedDates l).filter (fun e => decide (d < e))).length =
        (((sortedDates l).drop k).filter (fun e => decide (d < e))).length := by
    conv_lhs => rw [hsplit]
    rw [List.filter_append, List.length_append]
    have : ((sortedDates l).take k).filter (fun e => decide (d < e)) = [] := by
      rw [List.filter_eq_nil_iff]
      intro x hx
      simp only [decide_eq_true_eq]
      exact not_lt.mpr (hle x hx d hd)
    rw [this]
    simp
  have hperm : ((l.map Quote.dateOf).dedup.filter (fun e => decide (d < e))).length =
      ((sortedDates l).filter (fun e => decide (d < e))).length :=
    ((sortedDates_perm l).filter _).length_eq.symm
  rw [hperm, hfilter_eq]
  -- the window's filter misses d itself, and the window is nodup of length ≤ 12
  have hwnodup : ((sortedDates l).drop k).Nodup := hnodup.sublist (List.drop_sublist _ _)
  have hsub : (((sortedDates l).drop k).filter (fun e => decide (d < e))).Sublist
      ((sortedDates l).drop k) := List.filter_sublist _
  have hlen12 : ((sortedDates l).drop k).length ≤ 12 := length_drop_12_le _
  have hlt : (((sortedDates l).drop k).filter (fun e => decide (d < e))).length <
      ((sortedDates l).drop k).length := by
    rcases Nat.lt_or_ge (((sortedDates l).drop k).filter
        (fun e => decide (d < e))).length ((sortedDates l).drop k).length with h | h
    · exact h
    · exfalso
      have heq := hsub.eq_of_length (le_antisymm hsub.length_le h)
      have : d ∈ ((sortedDates l).drop k).filter (fun e => decide (d < e)) := by
        rw [heq]; exact hd
      have := List.of_mem_filter this
      simp at this
  omega

/-- Quotes kept by `mergeState` have dates in the retained window. -/
theorem mem_mergeState_quotes {existing : StoreState} {newQuotes : List Quote}
    {q : Quote} (hq : q ∈ (mergeState existing newQuotes).quotes) :
    q ∈ existing.quotes ++ newQuotes ∧
      q.date ∈ recentWindow (existing.quotes ++ newQuotes) := by
  rw [mergeState_quotes] at hq
  refine ⟨List.mem_of_mem_filter hq, ?_⟩
  have := List.of_mem_filter hq
  simpa using this

/-- The merged state retains at most 12 distinct quote dates. -/
theorem mergeState_dedup_le (existing : StoreState) (newQuotes : List Quote) :
    ((mergeState existing newQuotes).quotes.map Quote.dateOf).dedup.length ≤ 12 := by
  have hsub : ((mergeState existing newQuotes).quotes.map Quote.dateOf).dedup ⊆
      recentWindow (existing.quotes ++ newQuotes) := by
    intro d hd
    have hd' := List.mem_dedup.mp hd
    rcases List.mem_map.mp hd' with ⟨q, hq, hqd⟩
    rw [← hqd]
    exact (mem_mergeState_quotes hq).2
  have hn : ((mergeState existing newQuotes).quotes.map Quote.dateOf).dedup.Nodup :=
    List.nodup_dedup _
  exact le_trans (nodup_subset_length_le hn hsub) (length_drop_12_le _)

/-- All combined (pre-trim) dates are at most the merged watermark. -/
theorem mergeState_dates_le (existing : StoreState) (newQuotes : List Quote) :
    ∀ d ∈ (existing.quotes ++ newQuotes).map Quote.dateOf,
      d ≤ (mergeState existing newQuotes).lastUpdated := by
  intro d hd
  rw [mergeState_lastUpdated]
  exact sorted_le_getLastD _ _ (sortedDates_sorted _) d (mem_sortedDates.mpr hd)

theorem sortedDates_ne_nil {l : List Quote} (hne : l ≠ []) : sortedDates l ≠ [] := by
  have hmapne : l.map Quote.dateOf ≠ [] := by simpa using hne
  intro h
  have := mem_sortedDates (l := l) (d := (l.map Quote.dateOf).head hmapne)
  rw [h] at this
  exact (by simpa using this.mpr (List.head_mem hmapne))

/-- The merged watermark is one of the combined dates (when any exist). -/
theorem mergeState_last_mem_comb (existing : StoreState) (newQuotes : List Quote)
    (hne : existing.quotes ++ newQuotes ≠ []) :
    (mergeState existing newQuotes).lastUpdated ∈
      (existing.quotes ++ newQuotes).map Quote.dateOf := by
  rw [mergeState_lastUpdated]
  exact mem_sortedDates.mp (getLastD_mem _ _ (sortedDates_ne_nil hne))

theorem getLastD_mem_drop : ∀ (l : List String) (k : Nat) (d : String),
    k < l.length → l.getLastD d ∈ l.drop k
  | a :: t, 0, d, _ => getLastD_mem (a :: t) d (by simp)
  | a :: t, k + 1, d, h => by
    rw [List.getLastD_cons, List.drop_succ_cons]
    exact getLastD_mem_drop t k a (by simpa using h)
  | [], k, d, h => absurd h (by simp)

/-- Some surviving quote carries the merged watermark date (when any
combined quote exists): the maximum date is never pruned. -/
theorem mergeState_last_mem (existing : StoreState) (newQuotes : List Quote)
    (hne : existing.quotes ++ newQuotes ≠ []) :
    ∃ q ∈ (mergeState existing newQuotes).quotes,
      q.date = (mergeState existing newQuotes).lastUpdated := by
  have hsne := sortedDates_ne_nil hne
  have hmem := mergeState_last_mem_comb existing newQuotes hne
  rcases List.mem_map.mp hmem with ⟨q, hq, hqd⟩
  refine ⟨q, ?_, hqd⟩
  rw [mergeState_quotes]
  refine List.mem_filter.mpr ⟨hq, ?_⟩
  simp only [decide_eq_true_eq]
  unfold recentWindow
  have hlt : (sortedDates (existing.quotes ++ newQuotes)).length - 12 <
      (sortedDates (existing.quotes ++ newQuotes)).length := by
    have : (sortedDates (existing.quotes ++ newQuotes)).length ≠ 0 := by
      simpa [List.length_eq_zero] using hsne
    omega
  have := getLastD_mem_drop (sortedDates (existing.quotes ++ newQuotes))
    ((sortedDates (existing.quotes ++ newQuotes)).length - 12)
    existing.lastUpdated hlt
  rw [show q.date = (mergeState existing newQuotes).lastUpdated from hqd,
    mergeState_lastUpdated]
  exact this

/-- If the combined sequence is empty the merge returns the prior watermark. -/
theorem mergeState_last_of_empty (existing : StoreState) (newQuotes : List Quote)
    (hemp : existing.quotes ++ newQuotes = []) :
    (mergeState existing newQuotes).lastUpdated = existing.lastUpdated := by
  rw [mergeState_lastUpdated, hemp]
  rfl

end MergeLemmas

/-- C1: the merge step keeps at most 12 distinct dates, every retained
quote's date is among the 12 largest distinct dates of the combined
sequence (fewer than 12 distinct combined dates are strictly greater
than it), and the new watermark is the maximum date of the combined
pre-trim sequence, or the previous watermark if the combined sequence is
empty. -/
theorem merge_retention_and_watermark (existing : StoreState) (newQuotes : List Quote) :
    (((mergeState existing newQuotes).quotes.map Quote.dateOf).dedup.length ≤ 12) ∧
    (∀ q ∈ (mergeState existing newQuotes).quotes,
      q.date ∈ (existing.quotes ++ newQuotes).map Quote.dateOf ∧
      (((existing.quotes ++ newQuotes).map Quote.dateOf).dedup.filter
          (fun e => decide (q.date < e))).length < 12) ∧
    (existing.quotes ++ newQuotes = [] →
      (mergeState existing newQuotes).lastUpdated = existing.lastUpdated) ∧
    (existing.quotes ++ newQuotes ≠ [] →
      (mergeState existing newQuotes).lastUpdated ∈
          (existing.quotes ++ newQuotes).map Quote.dateOf ∧
        ∀ d ∈ (existing.quotes ++ newQuotes).map Quote.dateOf,
          d ≤ (mergeState existing newQuotes).lastUpdated) := by
  refine ⟨mergeState_dedup_le existing newQuotes, ?_,
    mergeState_last_of_empty existing newQuotes, ?_⟩
  · intro q hq
    obtain ⟨hmem, hwin⟩ := mem_mergeState_quotes hq
    exact ⟨List.mem_map.mpr ⟨q, hmem, rfl⟩, recentWindow_count_gt hwin⟩
  · intro hne
    exact ⟨mergeState_last_mem_comb existing newQuotes hne,
      mergeState_dates_le existing newQuotes⟩

/-- C2: every successful run writes a state satisfying the store
invariant: `lastUpdated` is the maximum date among the stored quotes (or
the prior value when no quote remains), at most 12 distinct dates are
present, and every remaining quote's date lies in the retention window
(fewer than 12 distinct combined dates are strictly greater than it). -/
theorem merge_preserves_store_invariant (existing : StoreState) (newQuotes : List Quote) :
    StoreInvariant (mergeState existing newQuotes) ∧
    ((mergeState existing newQuotes).quotes = [] →
      (mergeState existing newQuotes).lastUpdated = existing.lastUpdated) ∧
    (∀ q ∈ (mergeState existing newQuotes).quotes,
      (((existing.quotes ++ newQuotes).map Quote.dateOf).dedup.filter
          (fun e => decide (q.date < e))).length < 12) := by
  have hcomb_of_res : ∀ {q : Quote}, q ∈ (mergeState existing newQuotes).quotes →
      q ∈ existing.quotes ++ newQuotes := fun hq => (mem_mergeState_quotes hq).1
  refine ⟨⟨?_, mergeState_dedup_le existing newQuotes⟩, ?_, ?_⟩
  · intro hres
    have hne : existing.quotes ++ newQuotes ≠ [] := by
      intro hemp
      apply hres
      rw [mergeState_quotes, hemp]
      rfl
    obtain ⟨q, hq, hqd⟩ := mergeState_last_mem existing newQuotes hne
    constructor
    · exact List.mem_map.mpr ⟨q, hq, hqd⟩
    · intro d hd
      rcases List.mem_map.mp hd with ⟨q', hq', hq'd⟩
      rw [← hq'd]
      exact mergeState_dates_le existing newQuotes _
        (List.mem_map.mpr ⟨q', hcomb_of_res hq', rfl⟩)
  · intro hres
    apply mergeState_last_of_empty
    by_contra hne
    obtain ⟨q, hq, _⟩ := mergeState_last_mem existing newQuotes hne
    rw [hres] at hq
    cases hq
  · intro q hq
    exact recentWindow_count_gt (mem_mergeState_quotes hq).2

/-- C5: merging a state that already satisfies the store invariant with
an empty batch of new quotes returns the identical state, so a re-run
that finds no new articles rewrites the same store. -/
theorem merge_empty_noop (existing : StoreState) (h : StoreInvariant existing) :
    mergeState existing [] = existing := by
  obtain ⟨hmax, hlen⟩ := h
  have hqe : (mergeState existing []).quotes = existing.quotes := by
    rw [mergeState_quotes, List.append_nil]
    apply List.filter_eq_self.mpr
    intro q hq
    simp only [decide_eq_true_eq]
    have hlen' : (sortedDates existing.quotes).length ≤ 12 := by
      rw [(sortedDates_perm existing.quotes).length_eq]
      exact hlen
    unfold recentWindow
    have h0 : (sortedDates existing.quotes).length - 12 = 0 := by omega
    rw [h0, List.drop_zero]
    exact mem_sortedDates.mpr (List.mem_map.mpr ⟨q, hq, rfl⟩)
  have hle : (mergeState existing []).lastUpdated = existing.lastUpdated := by
    rw [mergeState_lastUpdated, List.append_nil]
    rcases eq_or_ne existing.quotes [] with he | hne
    · rw [he]
      rfl
    · obtain ⟨hmem, hub⟩ := hmax hne
      have hsne := sortedDates_ne_nil hne
      apply le_antisymm
      · exact hub _ (mem_sortedDates.mp (getLastD_mem _ _ hsne))
      · exact sorted_le_getLastD _ _ (sortedDates_sorted _) _ (mem_sortedDates.mpr hmem)
  calc mergeState existing [] =
      ⟨(mergeState existing []).lastUpdated, (mergeState existing []).quotes⟩ := rfl
    _ = ⟨existing.lastUpdated, existing.quotes⟩ := by rw [hqe, hle]
    _ = existing := rfl

/-- Witness for C5 at a concrete invariant-satisfying state. -/
theorem merge_empty_noop_witness :
    StoreInvariant ⟨"2026-02-22", [⟨"Quote text", "Brain Food", "2026-02-22"⟩]⟩ ∧
      mergeState ⟨"2026-02-22", [⟨"Quote text", "Brain Food", "2026-02-22"⟩]⟩ [] =
        ⟨"2026-02-22", [⟨"Quote text", "Brain Food", "2026-02-22"⟩]⟩ := by
  have hinv : StoreInvariant
      ⟨"2026-02-22", [⟨"Quote text", "Brain Food", "2026-02-22"⟩]⟩ := by
    constructor
    · intro _
      refine ⟨by simp [Quote.dateOf], ?_⟩
      intro d hd
      simp [Quote.dateOf] at hd
      simp [hd]
    · simp [Quote.dateOf]
  exact ⟨hinv, merge_empty_noop _ hinv⟩

/-! ### Character-level machinery for `stripHtml`

Each `.replace(regex, ...)` of the source is embedded as a character-list
scanner reproducing the regex engine's leftmost, non-overlapping global
replacement.  Scanners that can jump forward by more than one character
take a fuel argument (the input length always suffices, since every step
consumes at least one character); a scanner that runs out of fuel returns
the remaining input unchanged. -/

/-- JavaScript's `\s` character class (ECMAScript WhiteSpace and
LineTerminator code points); `String.prototype.trim` removes this same
set. -/
def isWs (c : Char) : Bool :=
  c == ' ' || c == '\t' || c == '\n' || c == '\x0b' || c == '\x0c' || c == '\r' ||
  c == ' ' || c == ' ' ||
  (decide (' ' ≤ c) && decide (c ≤ ' ')) ||
  c == ' ' || c == ' ' || c == ' ' || c == ' ' ||
  c == '　' || c == '﻿'

/-- Split a character list at its first `>`: returns the part before and
the part after the `>`. -/
def splitAtGt : List Char → Option (List Char × List Char)
  | [] => none
  | c :: rest =>
    if c = '>' then some ([], rest)
    else (splitAtGt rest).map (fun p => (c :: p.1, p.2))

/-- Embedding of `.replace(/<[^>]+>/g, '')`: at each `<`, the regex
matches up to the first following `>` provided at least one character
lies between; on a match the scanner resumes after the `>`.  If no `>`
follows a `<`, no tag can match anywhere in the remainder. -/
def stripTagsF : Nat → List Char → List Char
  | 0, l => l
  | _ + 1, [] => []
  | f + 1, c :: rest =>
    if c = '<' then
      match splitAtGt rest with
      | none => c :: rest
      | some ([], _) => c :: stripTagsF f rest
      | some (_ :: _, after) => stripTagsF f after
    else c :: stripTagsF f rest

def stripTags (l : List Char) : List Char := stripTagsF l.length l

/-- First pattern of `pats` (tried in order, as regex alternation does)
that is a prefix of `l`, together with the remainder of `l` after it. -/
def firstMatch (pats : List (List Char)) (l : List Char) :
    Option (List Char × List Char) :=
  match pats with
  | [] => none
  | p :: ps => if p.isPrefixOf l then some (p, l.drop p.length) else firstMatch ps l

/-- Embedding of a global replace of an alternation of literal patterns
(e.g. `.replace(/&#8220;|&ldquo;/g, c)`); a single literal is the
one-pattern case. -/
def replaceAnyF (pats : List (List Char)) (rep : List Char) :
    Nat → List Char → List Char
  | 0, l => l
  | _ + 1, [] => []
  | f + 1, c :: rest =>
    match firstMatch pats (c :: rest) with
    | some (_, r) => rep ++ replaceAnyF pats rep f r
    | none => c :: replaceAnyF pats rep f rest

def replaceAny (pats : List (List Char)) (rep : List Char) (l : List Char) :
    List Char :=
  replaceAnyF pats rep l.length l

/-- Match `&#\d+;` at the start of the list, returning the remainder. -/
def numRefMatch : List Char → Option (List Char)
  | '&' :: '#' :: rest =>
    if (rest.takeWhile Char.isDigit).isEmpty then none
    else
      match rest.dropWhile Char.isDigit with
      | ';' :: r => some r
      | _ => none
  | _ => none

/-- Embedding of `.replace(/&#\d+;/g, '')`. -/
def stripNumRefsF : Nat → List Char → List Char
  | 0, l => l
  | _ + 1, [] => []
  | f + 1, c :: rest =>
    match numRefMatch (c :: rest) with
    | some r => stripNumRefsF f r
    | none => c :: stripNumRefsF f rest

def stripNumRefs (l : List Char) : List Char := stripNumRefsF l.length l

/-- JavaScript's `[a-z]` class. -/
def isLowerAZ (c : Char) : Bool := decide ('a' ≤ c) && decide (c ≤ 'z')

/-- Match `&[a-z]+;` at the start of the list, returning the remainder. -/
def namedRefMatch : List Char → Option (List Char)
  | '&' :: rest =>
    if (rest.takeWhile isLowerAZ).isEmpty then none
    else
      match rest.dropWhile isLowerAZ with
      | ';' :: r => some r
      | _ => none
  | _ => none

/-- Embedding of `.replace(/&[a-z]+;/g, '')`. -/
def stripNamedRefsF : Nat → List Char → List Char
  | 0, l => l
  | _ + 1, [] => []
  | f + 1, c :: rest =>
    match namedRefMatch (c :: rest) with
    | some r => stripNamedRefsF f r
    | none => c :: stripNamedRefsF f rest

def stripNamedRefs (l : List Char) : List Char := stripNamedRefsF l.length l

/-- Embedding of `.replace(/\s+/g, ' ')`: every maximal run of whitespace
becomes a single space. -/
def collapseWs : List Char → List Char
  | [] => []
  | [c] => if isWs c then [' '] else [c]
  | a :: b :: rest =>
    if isWs a then
      if isWs b then collapseWs (b :: rest)
      else ' ' :: collapseWs (b :: rest)
    else a :: collapseWs (b :: rest)

/-- Remove trailing whitespace. -/
def trimEnd : List Char → List Char
  | [] => []
  | c :: rest =>
    let r := trimEnd rest
    if r.isEmpty then (if isWs c then [] else [c]) else c :: r

/-- Embedding of `String.prototype.trim`. -/
def trimWs (l : List Char) : List Char := trimEnd (l.dropWhile isWs)

/-- Stages 2-14 of `stripHtml` (source lines 30-42): decode the fixed
entity table in source order, drop numeric character references, then
drop any remaining named entity. -/
def decodeEntities (l : List Char) : List Char :=
  let l := replaceAny ["&amp;".data] "&".data l
  let l := replaceAny ["&lt;".data] "<".data l
  let l := replaceAny ["&gt;".data] ">".data l
  let l := replaceAny ["&quot;".data] "\"".data l
  let l := replaceAny ["&#8220;".data, "&ldquo;".data] "“".data l
  let l := replaceAny ["&#8221;".data, "&rdquo;".data] "”".data l
  let l := replaceAny ["&#8216;".data, "&lsquo;".data] "‘".data l
  let l := replaceAny ["&#8217;".data, "&rsquo;".data] "’".data l
  let l := replaceAny ["&#8212;".data, "&mdash;".data] "—".data l
  let l := replaceAny ["&#8211;".data, "&ndash;".data] "–".data l
  let l := replaceAny ["&nbsp;".data] " ".data l
  let l := stripNumRefs l
  stripNamedRefs l

/-- Embedding of `stripHtml` (source lines 27-45) at the character-list
level: strip tags, decode entities, collapse whitespace runs and trim. -/
def stripHtmlCL (l : List Char) : List Char :=
  trimWs (collapseWs (decodeEntities (stripTags l)))

/-- Embedding of the source's `stripHtml`. -/
def stripHtml (s : String) : String := String.mk (stripHtmlCL s.data)

section StripHtmlLemmas

/-- A successful `firstMatch` uses one of the patterns as a prefix. -/
theorem firstMatch_some {pats : List (List Char)} {l : List Char}
    {pr : List Char × List Char} (h : firstMatch pats l = some pr) :
    ∃ p ∈ pats, p.isPrefixOf l = true := by
  induction pats with
  | nil => simp [firstMatch] at h
  | cons p ps ih =>
    by_cases hp : p.isPrefixOf l
    · exact ⟨p, by simp, hp⟩
    · rw [firstMatch, if_neg hp] at h
      obtain ⟨q, hq, hqpre⟩ := ih h
      exact ⟨q, by simp [hq], hqpre⟩

theorem isPrefixOf_amp_head {t l : List Char}
    (h : ('&' :: t).isPrefixOf l = true) : '&' ∈ l := by
  cases l with
  | nil => simp [List.isPrefixOf] at h
  | cons c rest =>
    simp only [List.isPrefixOf, Bool.and_eq_true, beq_iff_eq] at h
    simp [← h.1]

/-- If every pattern starts with `&` and the input has no `&`, an
alternation replace is the identity (for any fuel). -/
theorem replaceAnyF_noop {pats : List (List Char)} {rep : List Char}
    (hp : ∀ p ∈ pats, p.head? = some '&') :
    ∀ (f : Nat) (l : List Char), '&' ∉ l → replaceAnyF pats rep f l = l := by
  intro f
  induction f with
  | zero => intro l _; rfl
  | succ f ih =>
    intro l hl
    cases l with
    | nil => rfl
    | cons c rest =>
      rw [replaceAnyF]
      have hnone : firstMatch pats (c :: rest) = none := by
        cases hm : firstMatch pats (c :: rest) with
        | none => rfl
        | some pr =>
          obtain ⟨p, hpmem, hpre⟩ := firstMatch_some hm
          have hhd := hp p hpmem
          cases p with
          | nil => cases hhd
          | cons d t =>
            have hd : d = '&' := by
              injection hhd
            subst hd
            exact absurd (isPrefixOf_amp_head hpre) hl
      rw [hnone]
      rw [ih rest (fun hmem => hl (List.mem_cons_of_mem c hmem))]

theorem numRefMatch_amp {l r : List Char} (h : numRefMatch l = some r) : '&' ∈ l := by
  cases l with
  | nil => simp [numRefMatch] at h
  | cons c rest =>
    by_cases hc : c = '&'
    · simp [hc]
    · exfalso
      have : numRefMatch (c :: rest) = none := by
        unfold numRefMatch
        split
        · rename_i heq
          injection heq with h1 _
          exact absurd h1 hc
        · rfl
      rw [this] at h
      cases h

theorem namedRefMatch_amp {l r : List Char} (h : namedRefMatch l = some r) :
    '&' ∈ l := by
  cases l with
  | nil => simp [namedRefMatch] at h
  | cons c rest =>
    by_cases hc : c = '&'
    · simp [hc]
    · exfalso
      have : namedRefMatch (c :: rest) = none := by
        unfold namedRefMatch
        split
        · rename_i heq
          injection heq with h1 _
          exact absurd h1 hc
        · rfl
      rw [this] at h
      cases h

theorem stripNumRefsF_noop :
    ∀ (f : Nat) (l : List Char), '&' ∉ l → stripNumRefsF f l = l := by
  intro f
  induction f with
  | zero => intro l _; rfl
  | succ f ih =>
    intro l hl
    cases l with
    | nil => rfl
    | cons c rest =>
      rw [stripNumRefsF]
      have hnone : numRefMatch (c :: rest) = none := by
        cases hm : numRefMatch (c :: rest) with
        | none => rfl
        | some r => exact absurd (numRefMatch_amp hm) hl
      rw [hnone, ih rest (fun hmem => hl (List.mem_cons_of_mem c hmem))]

theorem stripNamedRefsF_noop :
    ∀ (f : Nat) (l : List Char), '&' ∉ l → stripNamedRefsF f l = l := by
  intro f
  induction f with
  | zero => intro l _; rfl
  | succ f ih =>
    intro l hl
    cases l with
    | nil => rfl
    | cons c rest =>
      rw [stripNamedRefsF]
      have hnone : namedRefMatch (c :: rest) = none := by
        cases hm : namedRefMatch (c :: rest) with
        | none => rfl
        | some r => exact absurd (namedRefMatch_amp hm) hl
      rw [hnone, ih rest (fun hmem => hl (List.mem_cons_of_mem c hmem))]

theorem stripTagsF_noop :
    ∀ (f : Nat) (l : List Char), '<' ∉ l → stripTagsF f l = l := by
  intro f
  induction f with
  | zero => intro l _; rfl
  | succ f ih =>
    intro l hl
    cases l with
    | nil => rfl
    | cons c rest =>
      have hc : ¬ c = '<' := fun h => hl (by simp [h])
      rw [stripTagsF, if_neg hc, ih rest (fun hmem => hl (List.mem_cons_of_mem c hmem))]

end StripHtmlLemmas


section WhitespaceLemmas

/-- A character list in `collapseWs`-normal form: every whitespace
character is a plain space and no two adjacent characters are both
whitespace. -/
def Collapsed : List Char → Prop
  | [] => True
  | [a] => isWs a = true → a = ' '
  | a :: b :: l =>
    (isWs a = true → a = ' ') ∧ ¬(isWs a = true ∧ isWs b = true) ∧ Collapsed (b :: l)

theorem Collapsed.head {c : Char} {l : List Char} (h : Collapsed (c :: l)) :
    isWs c = true → c = ' ' := by
  cases l with
  | nil => exact h
  | cons b t => exact h.1

theorem Collapsed.tail {c : Char} {l : List Char} (h : Collapsed (c :: l)) :
    Collapsed l := by
  cases l with
  | nil => trivial
  | cons b t => exact h.2.2

theorem Collapsed.cons_nonWs {c : Char} {l : List Char} (hc : ¬ isWs c = true)
    (h : Collapsed l) : Collapsed (c :: l) := by
  cases l with
  | nil => exact fun hw => absurd hw hc
  | cons b t => exact ⟨fun hw => absurd hw hc, fun hw => absurd hw.1 hc, h⟩

theorem collapseWs_head_nonWs {b : Char} (hb : ¬ isWs b = true) :
    ∀ l : List Char, ∃ t, collapseWs (b :: l) = b :: t := by
  intro l
  cases l with
  | nil => exact ⟨[], by simp [collapseWs, hb]⟩
  | cons c rest => exact ⟨collapseWs (c :: rest), by simp [collapseWs, hb]⟩

theorem collapsed_collapseWs : ∀ l : List Char, Collapsed (collapseWs l) := by
  intro l
  induction l using collapseWs.induct with
  | case1 => trivial
  | case2 c hc =>
    simp only [collapseWs, hc, if_true]
    intro _
    rfl
  | case3 c hc =>
    simp only [collapseWs, hc, if_false]
    exact fun hw => absurd hw hc
  | case4 a b rest ha hb ih =>
    simpa [collapseWs, ha, hb] using ih
  | case5 a b rest ha hb ih =>
    simp only [collapseWs, ha, if_true, hb, if_false]
    obtain ⟨t, ht⟩ := collapseWs_head_nonWs hb rest
    rw [ht] at ih ⊢
    exact ⟨fun _ => rfl, fun hw => hb hw.2, ih⟩
  | case6 a b rest ha ih =>
    simp only [collapseWs, ha, if_false]
    exact Collapsed.cons_nonWs ha ih

theorem collapseWs_of_collapsed : ∀ l : List Char, Collapsed l → collapseWs l = l := by
  intro l
  induction l using collapseWs.induct with
  | case1 => intro _; rfl
  | case2 c hc =>
    intro h
    rw [collapseWs, if_pos hc, h hc]
  | case3 c hc =>
    intro _
    rw [collapseWs, if_neg hc]
  | case4 a b rest ha hb ih =>
    intro h
    exact absurd ⟨ha, hb⟩ h.2.1
  | case5 a b rest ha hb ih =>
    intro h
    rw [collapseWs, if_pos ha, if_neg hb, ih h.2.2, h.1 ha]
  | case6 a b rest ha ih =>
    intro h
    rw [collapseWs, if_neg ha, ih h.tail]

theorem collapsed_dropWhile : ∀ l : List Char, Collapsed l →
    Collapsed (l.dropWhile isWs) := by
  intro l
  induction l with
  | nil => intro _; trivial
  | cons c rest ih =>
    intro h
    by_cases hc : isWs c
    · rw [List.dropWhile_cons_of_pos hc]
      exact ih h.tail
    · rw [List.dropWhile_cons_of_neg hc]
      exact h

theorem trimEnd_shape (c : Char) (l : List Char) :
    trimEnd (c :: l) = [] ∨ ∃ r, trimEnd (c :: l) = c :: r := by
  rw [trimEnd]
  by_cases he : (trimEnd l).isEmpty
  · rw [if_pos he]
    by_cases hc : isWs c
    · exact Or.inl (by rw [if_pos hc])
    · exact Or.inr ⟨[], by rw [if_neg hc]⟩
  · exact Or.inr ⟨trimEnd l, by rw [if_neg he]⟩

theorem collapsed_trimEnd : ∀ l : List Char, Collapsed l → Collapsed (trimEnd l) := by
  intro l
  induction l with
  | nil => intro _; trivial
  | cons c rest ih =>
    intro h
    rw [trimEnd]
    by_cases he : (trimEnd rest).isEmpty
    · rw [if_pos he]
      by_cases hc : isWs c
      · rw [if_pos hc]; trivial
      · rw [if_neg hc]
        exact fun hw => absurd hw hc
    · rw [if_neg he]
      cases rest with
      | nil => simp [trimEnd] at he
      | cons b rest' =>
        rcases trimEnd_shape b rest' with h0 | ⟨r, hr⟩
        · exact absurd (by rw [h0]; rfl) he
        · rw [hr]
          refine ⟨h.1, fun hw => h.2.1 ⟨hw.1, hw.2⟩, ?_⟩
          have := ih h.2.2
          rwa [hr] at this

theorem trimEnd_trimEnd : ∀ l : List Char, trimEnd (trimEnd l) = trimEnd l := by
  intro l
  induction l with
  | nil => rfl
  | cons c rest ih =>
    rw [trimEnd]
    by_cases he : (trimEnd rest).isEmpty
    · rw [if_pos he]
      by_cases hc : isWs c
      · rw [if_pos hc]; rfl
      · rw [if_neg hc]
        simp [trimEnd, hc]
    · rw [if_neg he, trimEnd, ih]
      rw [if_neg he]

/-- The head of `dropWhile isWs` is not whitespace. -/
theorem dropWhile_head_false : ∀ (l : List Char) (c : Char) (r : List Char),
    l.dropWhile isWs = c :: r → ¬ isWs c = true := by
  intro l
  induction l with
  | nil => intro c r h; cases h
  | cons a t ih =>
    intro c r h
    by_cases ha : isWs a
    · rw [List.dropWhile_cons_of_pos ha] at h
      exact ih c r h
    · rw [List.dropWhile_cons_of_neg ha] at h
      injection h with h1 _
      rw [← h1]
      exact ha

/-- `trimWs (collapseWs ·)` output is stable under another
`trimWs (collapseWs ·)` pass. -/
theorem trimWs_collapseWs_stable (z : List Char) :
    trimWs (collapseWs (trimWs (collapseWs z))) = trimWs (collapseWs z) := by
  have hcol : Collapsed (trimWs (collapseWs z)) :=
    collapsed_trimEnd _ (collapsed_dropWhile _ (collapsed_collapseWs z))
  rw [collapseWs_of_collapsed _ hcol]
  unfold trimWs
  cases hu : (collapseWs z).dropWhile isWs with
  | nil => rfl
  | cons c u' =>
    have hc : ¬ isWs c = true := dropWhile_head_false _ _ _ hu
    rcases trimEnd_shape c u' with h0 | ⟨r, hr⟩
    · rw [h0]; rfl
    · rw [hr, List.dropWhile_cons_of_neg hc, ← hr, trimEnd_trimEnd]

end WhitespaceLemmas

section StripHtmlIdem

theorem stripTags_noop {l : List Char} (hl : '<' ∉ l) : stripTags l = l :=
  stripTagsF_noop l.length l hl

theorem replaceAny_noop {pats : List (List Char)} {rep : List Char}
    (hp : ∀ p ∈ pats, p.head? = some '&') {l : List Char} (hl : '&' ∉ l) :
    replaceAny pats rep l = l :=
  replaceAnyF_noop hp l.length l hl

theorem stripNumRefs_noop {l : List Char} (hl : '&' ∉ l) : stripNumRefs l = l :=
  stripNumRefsF_noop l.length l hl

theorem stripNamedRefs_noop {l : List Char} (hl : '&' ∉ l) : stripNamedRefs l = l :=
  stripNamedRefsF_noop l.length l hl

/-- All entity-decoding stages are the identity on an `&`-free list. -/
theorem decodeEntities_noop {l : List Char} (hl : '&' ∉ l) : decodeEntities l = l := by
  simp only [decodeEntities]
  rw [replaceAny_noop (by decide) hl, replaceAny_noop (by decide) hl,
    replaceAny_noop (by decide) hl, replaceAny_noop (by decide) hl,
    replaceAny_noop (by decide) hl, replaceAny_noop (by decide) hl,
    replaceAny_noop (by decide) hl, replaceAny_noop (by decide) hl,
    replaceAny_noop (by decide) hl, replaceAny_noop (by decide) hl,
    replaceAny_noop (by decide) hl, stripNumRefs_noop hl, stripNamedRefs_noop hl]

end StripHtmlIdem

/-- C4 counterexample: `stripHtml` is not idempotent.  On
`"&lt;b&gt;"` one pass decodes the entities to the tag-shaped text
`"<b>"`, and a second pass strips that as a markup tag, yielding `""`. -/
theorem stripHtml_not_idempotent :
    stripHtml (stripHtml "&lt;b&gt;") ≠ stripHtml "&lt;b&gt;" ∧
      stripHtml "&lt;b&gt;" = "<b>" ∧ stripHtml (stripHtml "&lt;b&gt;") = "" := by
  refine ⟨?_, by decide, by decide⟩
  decide

theorem String_data_mk (l : List Char) : (String.mk l).data = l := rfl

theorem stripHtml_data (s : String) : (stripHtml s).data = stripHtmlCL s.data := by
  rw [stripHtml, String_data_mk]

theorem stripHtmlCL_eq (l : List Char) :
    stripHtmlCL l = trimWs (collapseWs (decodeEntities (stripTags l))) := by
  rw [stripHtmlCL]

/-- Core of C4's amended statement at the character-list level. -/
theorem stripHtmlCL_idem {d : List Char} (hlt : '<' ∉ stripHtmlCL d)
    (hamp : '&' ∉ stripHtmlCL d) : stripHtmlCL (stripHtmlCL d) = stripHtmlCL d := by
  conv_lhs => rw [stripHtmlCL_eq (stripHtmlCL d)]
  rw [stripTags_noop hlt, decodeEntities_noop hamp]
  rw [stripHtmlCL_eq d]
  exact trimWs_collapseWs_stable _

/-- C4 amended: `stripHtml` is idempotent on every input whose first
normalization contains neither `<` nor `&` — i.e. unless entity decoding
re-creates markup (`<...>`) or ampersand text that a second pass would
strip or decode again.  (The counterexample `"&lt;b&gt;"` shows the
unrestricted claim is false.) -/
theorem stripHtml_idempotent_when_output_clean (x : String)
    (h : ∀ c ∈ (stripHtml x).data, c ≠ '<' ∧ c ≠ '&') :
    stripHtml (stripHtml x) = stripHtml x := by
  simp only [stripHtml_data] at h
  have hlt : '<' ∉ stripHtmlCL x.data := fun hm => (h _ hm).1 rfl
  have hamp : '&' ∉ stripHtmlCL x.data := fun hm => (h _ hm).2 rfl
  rw [stripHtml, stripHtml, String_data_mk, stripHtmlCL_idem hlt hamp]

/-- Witness for C4's amended statement at a concrete input whose
normalization is free of `<` and `&`. -/
theorem stripHtml_idempotent_witness :
    (∀ c ∈ (stripHtml "<p>Some  tiny&nbsp;thought </p>").data, c ≠ '<' ∧ c ≠ '&') ∧
      stripHtml (stripHtml "<p>Some  tiny&nbsp;thought </p>") =
        stripHtml "<p>Some  tiny&nbsp;thought </p>" :=
  ⟨by decide, stripHtml_idempotent_when_output_clean _ (by decide)⟩

/-! ### Slug date parsing (`parseDateFromSlug`, source lines 47-57)

`MONTHS[monthName]` in JavaScript is a property lookup on a plain object
literal, which also finds the members inherited from `Object.prototype`
(`constructor`, `toString`, ...).  All of those are functions (or, for
`__proto__`, an object), hence truthy, so the `!month` guard does not
reject them.  The embedding models the lookup faithfully, including the
string conversion `String(month)` used to build the result. -/

/-- Split a character list at a separator, as `String.prototype.split`
with a single-character separator. -/
def consHead (c : Char) : List (List Char) → List (List Char)
  | [] => [[c]]
  | p :: ps => (c :: p) :: ps

def splitSep (sep : Char) : List Char → List (List Char)
  | [] => [[]]
  | c :: rest =>
    if c = sep then [] :: splitSep sep rest else consHead c (splitSep sep rest)

def intercalateSep (sep : Char) : List (List Char) → List Char
  | [] => []
  | [p] => p
  | p :: ps => p ++ sep :: intercalateSep sep ps

/-- The `MONTHS` table of the source. -/
def MONTHS : List (String × Nat) :=
  [("january", 1), ("february", 2), ("march", 3), ("april", 4), ("may", 5),
   ("june", 6), ("july", 7), ("august", 8), ("september", 9), ("october", 10),
   ("november", 11), ("december", 12)]

/-- The function-valued own properties of `Object.prototype` that a plain
object literal inherits (Node.js/V8). -/
def objectProtoFns : List String :=
  ["constructor", "__defineGetter__", "__defineSetter__", "hasOwnProperty",
   "__lookupGetter__", "__lookupSetter__", "isPrototypeOf", "propertyIsEnumerable",
   "toString", "valueOf", "toLocaleString"]

/-- The JavaScript value produced by the property read `MONTHS[monthName]`:
a month number from the table's own properties, an inherited
`Object.prototype` function, the inherited `__proto__` object, or
`undefined` (`none`).  All the non-`none` values are truthy. -/
inductive JsMonthValue where
  | num (n : Nat)
  | fn (src : String)
  | obj
deriving DecidableEq

def monthsLookup (name : String) : Option JsMonthValue :=
  match MONTHS.find? (fun p => p.1 == name) with
  | some p => some (.num p.2)
  | none =>
    if name = "constructor" then
      some (.fn "function Object() \x7b [native code] \x7d")
    else if name ∈ objectProtoFns then
      some (.fn ("function " ++ name ++ "() \x7b [native code] \x7d"))
    else if name = "__proto__" then some .obj
    else none

/-- `String(month)` for the looked-up value. -/
def jsMonthToString : JsMonthValue → String
  | .num n => toString n
  | .fn src => src
  | .obj => "[object Object]"

/-- `String.prototype.padStart(2, '0')`. -/
def padStart2 (s : String) : String :=
  String.mk (List.replicate (2 - s.length) '0') ++ s

def isDigits (l : List Char) : Bool := l.all Char.isDigit

/-- `parseInt` on a plain digit string. -/
def digitsVal (l : List Char) : Nat :=
  l.foldl (fun acc c => 10 * acc + (c.toNat - 48)) 0

/-- Embedding of `parseDateFromSlug` (source lines 47-57). -/
def parseDateFromSlug (slug : String) : Option String :=
  let parts := splitSep '-' slug.data
  if parts.length < 3 then none
  else
    let year := parts.getLastD []
    let day := parts.getD (parts.length - 2) []
    let monthName := String.mk (intercalateSep '-' (parts.take (parts.length - 2)))
    match monthsLookup monthName with
    | none => none
    | some month =>
      if isDigits year && year.length == 4 && isDigits day &&
          (day.length == 1 || day.length == 2) then
        some (String.mk year ++ "-" ++ padStart2 (jsMonthToString month) ++ "-" ++
          padStart2 (toString (digitsVal day)))
      else none

/-- C3: `parseDateFromSlug` violates its contract on slugs whose month
part names an inherited `Object.prototype` property.  The all-lowercase
slug `"constructor-5-2026"` is not in the 12-month table, so the claim
requires `null`, but the code's `MONTHS[monthName]` lookup finds the
inherited truthy `Object` constructor and returns a garbage non-date
string.  Well-formed slugs and ordinary malformed slugs behave as
claimed. -/
theorem parseDateFromSlug_prototype_bug :
    parseDateFromSlug "constructor-5-2026" =
        some "2026-function Object() \x7b [native code] \x7d-05" ∧
      parseDateFromSlug "toString-22-2026" ≠ none ∧
      parseDateFromSlug "february-22-2026" = some "2026-02-22" ∧
      parseDateFromSlug "may-5-2026" = some "2026-05-05" ∧
      parseDateFromSlug "may-2026" = none ∧
      parseDateFromSlug "february-22-26" = none ∧
      parseDateFromSlug "february-223-2026" = none ∧
      parseDateFromSlug "February-22-2026" = none ∧
      parseDateFromSlug "notamonth-22-2026" = none ∧
      parseDateFromSlug "" = none := by
  refine ⟨by decide, by decide, by decide, by decide, by decide,
    by decide, by decide, by decide, by decide, by decide⟩

/-! ### Candidate filtering and ordering (`main`, source lines 119-133)

The loop derives a slug from each URL, parses its date, keeps the URL
only when `new Date(date) > new Date(existing.lastUpdated)`, and sorts
the survivors by `a.date.localeCompare(b.date)` ascending.  `new Date`
on an ECMAScript date-only string (`YYYY`, `YYYY-MM`, `YYYY-MM-DD` with
in-range month and day) yields its UTC timestamp and `NaN` (making every
comparison false) otherwise; comparison of the timestamps of valid
date-only strings coincides with lexicographic comparison of the
`(year, month, day)` components, which is how `jsDateVal` encodes it. -/

/-- `String.prototype.replace` with a string pattern: replace the first
occurrence only. -/
def replaceFirstCL (pat rep : List Char) : List Char → List Char
  | [] => if pat.isEmpty then rep else []
  | c :: rest =>
    if pat.isPrefixOf (c :: rest) then rep ++ (c :: rest).drop pat.length
    else c :: replaceFirstCL pat rep rest

def brainFoodPrefix : String := "https://fs.blog/brain-food/"

/-- `url.replace('https://fs.blog/brain-food/', '').replace(/\/$/, '')`. -/
def slugOfUrl (url : String) : String :=
  let stripped := replaceFirstCL brainFoodPrefix.data [] url.data
  String.mk (if stripped.getLast? = some '/' then stripped.dropLast else stripped)

def isLeapYear (y : Nat) : Bool := (y % 4 == 0 && y % 100 != 0) || y % 400 == 0

def daysInMonth (y m : Nat) : Nat :=
  if m = 2 then (if isLeapYear y then 29 else 28)
  else if m = 4 ∨ m = 6 ∨ m = 9 ∨ m = 11 then 30
  else 31

/-- The value of `new Date(s).getTime()` for ECMAScript date-only
strings, encoded order-faithfully as `y * 10000 + m * 100 + d`;
`none` models `NaN` (an invalid date). -/
def jsDateVal (s : String) : Option Nat :=
  match s.data with
  | [y1, y2, y3, y4] =>
    if isDigits [y1, y2, y3, y4] then
      some (digitsVal [y1, y2, y3, y4] * 10000 + 100 + 1)
    else none
  | [y1, y2, y3, y4, '-', m1, m2] =>
    if isDigits [y1, y2, y3, y4] && isDigits [m1, m2] &&
        decide (1 ≤ digitsVal [m1, m2]) && decide (digitsVal [m1, m2] ≤ 12) then
      some (digitsVal [y1, y2, y3, y4] * 10000 + digitsVal [m1, m2] * 100 + 1)
    else none
  | [y1, y2, y3, y4, '-', m1, m2, '-', d1, d2] =>
    if isDigits [y1, y2, y3, y4] && isDigits [m1, m2] && isDigits [d1, d2] &&
        decide (1 ≤ digitsVal [m1, m2]) && decide (digitsVal [m1, m2] ≤ 12) &&
        decide (1 ≤ digitsVal [d1, d2]) &&
        decide (digitsVal [d1, d2] ≤
          daysInMonth (digitsVal [y1, y2, y3, y4]) (digitsVal [m1, m2])) then
      some (digitsVal [y1, y2, y3, y4] * 10000 + digitsVal [m1, m2] * 100 +
        digitsVal [d1, d2])
    else none
  | _ => none

/-- `new Date(d) > new Date(wm)`: false whenever either side is `NaN`. -/
def jsDateAfter (d wm : String) : Bool :=
  match jsDateVal d, jsDateVal wm with
  | some x, some y => decide (y < x)
  | _, _ => false

/-- An entry of the `articles` array built by `main`. -/
structure ArticleCand where
  url : String
  date : String
  slug : String
deriving DecidableEq

/-- One iteration of the candidate loop: `null` when the candidate is
dropped (unparseable slug date, or date not strictly after the
watermark). -/
def candidateOf (wm : String) (url : String) : Option ArticleCand :=
  let slug := slugOfUrl url
  match parseDateFromSlug slug with
  | none => none
  | some date =>
    if jsDateAfter date wm then some { url := url, date := date, slug := slug }
    else none

/-- Embedding of `main`'s candidate filter followed by
`articles.sort((a, b) => a.date.localeCompare(b.date))` (a stable sort
by date, ascending; `localeCompare` on these ASCII date strings is
lexicographic comparison). -/
def selectArticles (wm : String) (urls : List String) : List ArticleCand :=
  List.insertionSort (fun a b : ArticleCand => jsLeb a.date b.date = true)
    (urls.filterMap (candidateOf wm))

theorem candidateOf_eq_some {wm url : String} {a : ArticleCand} :
    candidateOf wm url = some a ↔
      a.url = url ∧ a.slug = slugOfUrl url ∧
        parseDateFromSlug (slugOfUrl url) = some a.date ∧
        jsDateAfter a.date wm = true := by
  obtain ⟨au, ad, as⟩ := a
  simp only [candidateOf]
  cases hp : parseDateFromSlug (slugOfUrl url) with
  | none =>
    dsimp only
    constructor
    · intro h
      cases h
    · rintro ⟨_, _, hpd, _⟩
      cases hpd
  | some d =>
    dsimp only
    cases hj : jsDateAfter d wm with
    | false =>
      rw [if_neg Bool.false_ne_true]
      constructor
      · intro h
        cases h
      · rintro ⟨h1, h2, hpd, hja⟩
        injection hpd with hd
        rw [← hd, hj] at hja
        cases hja
    | true =>
      rw [if_pos rfl]
      constructor
      · intro h
        injection h with h
        injection h with h1 h2 h3
        exact ⟨h1.symm, h3.symm, by rw [← h2], by rw [← h2]; exact hj⟩
      · rintro ⟨h1, h2, hpd, hja⟩
        injection hpd with hd
        rw [h1, h2, hd]

/-- C8: the orchestrator keeps exactly the candidate URLs whose derived
slug parses to a date strictly after the stored watermark (under the
`new Date` comparison, so unparseable dates and invalid or non-newer
dates are dropped), and processes the survivors in ascending date order
(oldest first), as a stable sort of the kept candidates. -/
theorem orchestrator_filter_and_sort (wm : String) (urls : List String) :
    (∀ a : ArticleCand, a ∈ selectArticles wm urls ↔
      ∃ url ∈ urls, a.url = url ∧ a.slug = slugOfUrl url ∧
        parseDateFromSlug (slugOfUrl url) = some a.date ∧
        jsDateAfter a.date wm = true) ∧
    List.Sorted (fun a b : ArticleCand => a.date ≤ b.date) (selectArticles wm urls) ∧
    (selectArticles wm urls).Perm (urls.filterMap (candidateOf wm)) := by
  refine ⟨?_, ?_, List.perm_insertionSort _ _⟩
  · intro a
    rw [selectArticles, List.mem_insertionSort, List.mem_filterMap]
    constructor
    · rintro ⟨url, hu, hc⟩
      exact ⟨url, hu, candidateOf_eq_some.mp hc⟩
    · rintro ⟨url, hu, hc⟩
      exact ⟨url, hu, candidateOf_eq_some.mpr hc⟩
  · haveI : IsTotal ArticleCand (fun a b : ArticleCand => jsLeb a.date b.date = true) :=
      ⟨fun a b => by
        rcases le_total a.date b.date with h | h
        · exact Or.inl ((jsLeb_iff _ _).mpr h)
        · exact Or.inr ((jsLeb_iff _ _).mpr h)⟩
    haveI : IsTrans ArticleCand (fun a b : ArticleCand => jsLeb a.date b.date = true) :=
      ⟨fun a b c hab hbc => (jsLeb_iff _ _).mpr
        (le_trans ((jsLeb_iff _ _).mp hab) ((jsLeb_iff _ _).mp hbc))⟩
    exact (List.sorted_insertionSort _ _).imp (fun h => (jsLeb_iff _ _).mp h)

/-! ### Section extraction (`scrapeArticle`, source lines 59-94)

The fetch is factored out: `scrapeArticle` in the source first awaits
`fetchUrl(url)` and then processes the returned HTML; the pure
processing of that HTML is embedded here, applied to the already-fetched
page body. -/

/-- `String.prototype.indexOf(pat)` on character lists. -/
def indexOfSub (pat : List Char) : List Char → Option Nat
  | [] => if pat.isEmpty then some 0 else none
  | c :: rest =>
    if pat.isPrefixOf (c :: rest) then some 0
    else (indexOfSub pat rest).map (· + 1)

/-- `String.prototype.indexOf(pat, from)`. -/
def indexOfSubFrom (pat : List Char) (l : List Char) (start : Nat) : Option Nat :=
  (indexOfSub pat (l.drop start)).map (· + start)

/-- `String.prototype.slice(a, b)` (with `0 ≤ a ≤ b`). -/
def sliceCL (l : List Char) (a b : Nat) : List Char := (l.take b).drop a

/-- Match the `<hr[^>]*\/?>` delimiter at the start of the list: `<hr`,
then any run of non-`>` characters (which absorbs an optional `/`),
then `>`.  Returns the remainder after the match. -/
def hrMatch : List Char → Option (List Char)
  | '<' :: 'h' :: 'r' :: rest =>
    match rest.dropWhile (fun c => c ≠ '>') with
    | '>' :: r => some r
    | _ => none
  | _ => none

/-- `section.split(/<hr[^>]*\/?>/)`. -/
def splitHrF : Nat → List Char → List (List Char)
  | 0, l => [l]
  | _ + 1, [] => [[]]
  | f + 1, l@(c :: rest) =>
    match hrMatch l with
    | some r => [] :: splitHrF f r
    | none => consHead c (splitHrF f rest)

def splitHr (l : List Char) : List (List Char) := splitHrF l.length l

/-- Match `<p[^>]*>` at the start of the list, returning the remainder
after the `>`. -/
def pOpenMatch : List Char → Option (List Char)
  | '<' :: 'p' :: rest =>
    match rest.dropWhile (fun c => c ≠ '>') with
    | '>' :: r => some r
    | _ => none
  | _ => none

/-- All captures of the global regex `/<p[^>]*>([\s\S]*?)<\/p>/g` in
document order: after an opening tag the lazy body extends to the first
`</p>`; if none exists the engine abandons this start position and
advances one character. -/
def pMatchesF : Nat → List Char → List (List Char)
  | 0, _ => []
  | _ + 1, [] => []
  | f + 1, l@(_ :: rest) =>
    match pOpenMatch l with
    | some r =>
      match indexOfSub "</p>".data r with
      | some k => r.take k :: pMatchesF f (r.drop (k + 4))
      | none => pMatchesF f rest
    | none => pMatchesF f rest

def pMatches (l : List Char) : List (List Char) := pMatchesF l.length l

/-- The surviving normalized fragments of one `<hr>`-delimited group:
each paragraph body is normalized by `stripHtml` and kept when longer
than 5 characters (source lines 84-87). -/
def groupParts (g : List Char) : List String :=
  ((pMatches g).map (fun frag => stripHtml (String.mk frag))).filter
    (fun t => decide (t.length > 5))

/-- `parts.join(' ')`. -/
def joinSpace : List String → String
  | [] => ""
  | [p] => p
  | p :: ps => p ++ " " ++ joinSpace ps

/-- The quote-collecting loop over groups (source lines 78-91): stop as
soon as 3 quotes are collected; a group with surviving fragments
contributes one quote whose text is the fragments joined by spaces. -/
def collectQuotes (edition date : String) : List (List Char) → List Quote → List Quote
  | [], acc => acc
  | g :: gs, acc =>
    if acc.length ≥ 3 then acc
    else
      let parts := groupParts g
      if parts.isEmpty then collectQuotes edition date gs acc
      else collectQuotes edition date gs
        (acc ++ [{ text := joinSpace parts, edition := edition, date := date }])

/-- The anchor marking the Tiny Thoughts section. -/
def anchorPat : List Char := "id=\"h-tiny-thoughts\"".data

/-- Embedding of `scrapeArticle`'s processing of a fetched page body
(source lines 62-93).  When `</h2>` is missing, `indexOf` returns `-1`
and the source computes `h2EndIdx = -1 + 5 = 4`, which the embedding
reproduces. -/
def scrapeArticle (html : String) (date edition : String) : List Quote :=
  match indexOfSub anchorPat html.data with
  | none => []
  | some anchorIdx =>
    let h2EndIdx :=
      match indexOfSubFrom "</h2>".data html.data anchorIdx with
      | some i => i + 5
      | none => 4
    let sectionCL :=
      match indexOfSubFrom "<h2".data html.data h2EndIdx with
      | some nextH2Idx => sliceCL html.data h2EndIdx nextH2Idx
      | none => sliceCL html.data h2EndIdx (h2EndIdx + 8000)
    collectQuotes edition date (splitHr sectionCL) []

section ExtractorLemmas

theorem collectQuotes_full (edition date : String) :
    ∀ (gs : List (List Char)) (acc : List Quote), acc.length ≥ 3 →
      collectQuotes edition date gs acc = acc
  | [], _, _ => rfl
  | g :: gs, acc, h => by
    simp only [collectQuotes]
    rw [if_pos h]

theorem collectQuotes_length_le (edition date : String) :
    ∀ (gs : List (List Char)) (acc : List Quote), acc.length ≤ 3 →
      (collectQuotes edition date gs acc).length ≤ 3
  | [], _, h => h
  | g :: gs, acc, h => by
    simp only [collectQuotes]
    split_ifs with h1 h2
    · exact h
    · exact collectQuotes_length_le edition date gs acc h
    · exact collectQuotes_length_le edition date gs _ (by
        rw [List.length_append]
        simp only [List.length_singleton]
        omega)

theorem collectQuotes_skip (edition date : String) (g : List Char)
    (gs : List (List Char)) (acc : List Quote) (hg : groupParts g = []) :
    collectQuotes edition date (g :: gs) acc = collectQuotes edition date gs acc := by
  simp only [collectQuotes]
  by_cases hf : acc.length ≥ 3
  · rw [if_pos hf, collectQuotes_full edition date gs acc hf]
  · rw [if_neg hf, hg]
    simp

theorem collectQuotes_contrib (edition date : String) (g : List Char)
    (gs : List (List Char)) (acc : List Quote) (hg : ¬ groupParts g = [])
    (hlen : acc.length < 3) :
    collectQuotes edition date (g :: gs) acc =
      collectQuotes edition date gs
        (acc ++ [{ text := joinSpace (groupParts g), edition := edition,
                   date := date }]) := by
  simp only [collectQuotes]
  rw [if_neg (by omega : ¬ acc.length ≥ 3),
    if_neg (fun h => hg (List.isEmpty_iff.mp h))]

end ExtractorLemmas

/-- C6: the extractor returns at most 3 items for any page body; with
exactly 3 groups each having a surviving paragraph followed by a 4th
group it returns exactly 3 items and the 4th group contributes nothing;
a group all of whose normalized paragraph fragments have length ≤ 5
contributes zero items; and a contributing group (while under the cap)
contributes exactly one item whose text is the space-joined
concatenation of its surviving fragments in document order. -/
theorem extractor_group_behaviour :
    (∀ (html date edition : String), (scrapeArticle html date edition).length ≤ 3) ∧
    (∀ (edition date : String) (g1 g2 g3 g4 : List Char),
      groupParts g1 ≠ [] → groupParts g2 ≠ [] → groupParts g3 ≠ [] →
      (collectQuotes edition date [g1, g2, g3, g4] []).length = 3 ∧
        collectQuotes edition date [g1, g2, g3, g4] [] =
          collectQuotes edition date [g1, g2, g3] []) ∧
    (∀ (edition date : String) (g : List Char) (gs : List (List Char))
      (acc : List Quote),
      (∀ frag ∈ pMatches g, (stripHtml (String.mk frag)).length ≤ 5) →
      collectQuotes edition date (g :: gs) acc = collectQuotes edition date gs acc) ∧
    (∀ (edition date : String) (g : List Char) (gs : List (List Char))
      (acc : List Quote),
      groupParts g ≠ [] → acc.length < 3 →
      collectQuotes edition date (g :: gs) acc =
        collectQuotes edition date gs
          (acc ++ [{ text := joinSpace (groupParts g), edition := edition,
                     date := date }])) := by
  refine ⟨?_, ?_, ?_, collectQuotes_contrib⟩
  · intro html date edition
    simp only [scrapeArticle]
    cases indexOfSub anchorPat html.data with
    | none => simp
    | some anchorIdx =>
      exact collectQuotes_length_le edition date _ [] (by simp)
  · intro edition date g1 g2 g3 g4 h1 h2 h3
    rw [collectQuotes_contrib edition date g1 [g2, g3, g4] [] h1 (by simp),
      collectQuotes_contrib edition date g2 [g3, g4] _ h2 (by simp),
      collectQuotes_contrib edition date g3 [g4] _ h3 (by simp),
      collectQuotes_full edition date [g4] _ (by simp),
      collectQuotes_contrib edition date g1 [g2, g3] [] h1 (by simp),
      collectQuotes_contrib edition date g2 [g3] _ h2 (by simp),
      collectQuotes_contrib edition date g3 [] _ h3 (by simp)]
    exact ⟨by simp, rfl⟩
  · intro edition date g gs acc hfrag
    apply collectQuotes_skip
    rw [groupParts, List.filter_eq_nil_iff]
    intro t ht
    rcases List.mem_map.mp ht with ⟨frag, hfragmem, hfrageq⟩
    simp only [decide_eq_true_eq]
    rw [← hfrageq]
    exact not_lt.mpr (hfrag frag hfragmem)

/-- Witness for C6 at concrete groups. -/
theorem extractor_group_behaviour_witness :
    ((collectQuotes "Brain Food" "2026-02-22"
        ["<p>First thought here.</p>".data, "<p>Second one right.</p>".data,
         "<p>Third thought text.</p>".data, "<p>Fourth thought text.</p>".data]
        []).length = 3 ∧
      collectQuotes "Brain Food" "2026-02-22"
          ["<p>First thought here.</p>".data, "<p>Second one right.</p>".data,
           "<p>Third thought text.</p>".data, "<p>Fourth thought text.</p>".data] [] =
        collectQuotes "Brain Food" "2026-02-22"
          ["<p>First thought here.</p>".data, "<p>Second one right.</p>".data,
           "<p>Third thought text.</p>".data] []) ∧
    collectQuotes "Brain Food" "2026-02-22" ["<p>tiny</p>".data] [] =
      collectQuotes "Brain Food" "2026-02-22" [] [] ∧
    collectQuotes "Brain Food" "2026-02-22" ["<p>First thought here.</p>".data] [] =
      collectQuotes "Brain Food" "2026-02-22" []
        ([] ++ [{ text := joinSpace (groupParts "<p>First thought here.</p>".data),
                  edition := "Brain Food", date := "2026-02-22" }]) :=
  ⟨extractor_group_behaviour.2.1 "Brain Food" "2026-02-22" _ _ _ _
      (by decide) (by decide) (by decide),
    extractor_group_behaviour.2.2.1 "Brain Food" "2026-02-22" _ [] []
      (by decide),
    extractor_group_behaviour.2.2.2 "Brain Food" "2026-02-22" _ [] []
      (by decide) (by decide)⟩

/-! ### The fetcher (`fetchUrl`, source lines 10-25)

The network is abstracted as a pure environment mapping each URL to the
response it produces (`statusCode`, optional `Location` header, body).
`fetchUrl` follows the source: reject once more than 5 redirects have
been taken, follow a 3xx response carrying a (truthy, i.e. non-empty)
`Location` header after resolving relative locations against
`https://fs.blog`, and otherwise resolve with the body text. -/

structure HttpResponse where
  statusCode : Nat
  location : Option String
  body : String

/-- JavaScript truthiness of `res.headers.location`: present and
non-empty. -/
def locationTruthy : Option String → Bool
  | some l => l != ""
  | none => false

/-- `loc.startsWith('http') ? loc : `https://fs.blog${loc}``. -/
def resolveLocation (loc : String) : String :=
  if "http".data.isPrefixOf loc.data then loc else "https://fs.blog" ++ loc

def fetchUrl (env : String → HttpResponse) (url : String) (redirects : Nat) :
    Except String String :=
  if redirects > 5 then .error "Too many redirects"
  else
    let res := env url
    if 300 ≤ res.statusCode ∧ res.statusCode < 400 ∧ locationTruthy res.location then
      fetchUrl env (resolveLocation (res.location.getD "")) (redirects + 1)
    else .ok res.body
termination_by 6 - redirects
decreasing_by simp_wf; omega

/-- Response `r` is a redirect pointing at the absolute URL `target`. -/
def redirectsTo (r : HttpResponse) (target : String) : Prop :=
  300 ≤ r.statusCode ∧ r.statusCode < 400 ∧ r.location = some target ∧
    target ≠ "" ∧ "http".data.isPrefixOf target.data = true

instance (r : HttpResponse) (target : String) : Decidable (redirectsTo r target) := by
  unfold redirectsTo
  infer_instance

theorem fetchUrl_redirect_step (env : String → HttpResponse) (url target : String)
    (k : Nat) (hk : k ≤ 5) (hr : redirectsTo (env url) target) :
    fetchUrl env url k = fetchUrl env target (k + 1) := by
  obtain ⟨h1, h2, h3, h4, h5⟩ := hr
  rw [fetchUrl]
  rw [if_neg (by omega : ¬ k > 5)]
  rw [if_pos ⟨h1, h2, by rw [h3]; simpa [locationTruthy] using h4⟩]
  rw [h3]
  simp only [Option.getD_some]
  rw [resolveLocation, if_pos h5]

theorem fetchUrl_done (env : String → HttpResponse) (url : String) (k : Nat)
    (hk : k ≤ 5)
    (hnr : ¬ (300 ≤ (env url).statusCode ∧ (env url).statusCode < 400 ∧
      locationTruthy (env url).location = true)) :
    fetchUrl env url k = .ok (env url).body := by
  rw [fetchUrl]
  rw [if_neg (by omega : ¬ k > 5)]
  rw [if_neg hnr]

theorem fetchUrl_exhausted (env : String → HttpResponse) (url : String) (k : Nat)
    (hk : k > 5) : fetchUrl env url k = .error "Too many redirects" := by
  rw [fetchUrl]
  rw [if_pos hk]

/-- C7: a chain of four redirects ending in a non-redirect response
succeeds with the final body; any chain of six redirect responses fails
with the redirect-budget error (so a redirect cycle terminates). -/
theorem fetch_redirect_budget (env : String → HttpResponse) (urls : Nat → String) :
    ((∀ i < 4, redirectsTo (env (urls i)) (urls (i + 1))) →
      ¬ (300 ≤ (env (urls 4)).statusCode ∧ (env (urls 4)).statusCode < 400 ∧
          locationTruthy (env (urls 4)).location = true) →
      fetchUrl env (urls 0) 0 = .ok (env (urls 4)).body) ∧
    ((∀ i < 6, redirectsTo (env (urls i)) (urls (i + 1))) →
      fetchUrl env (urls 0) 0 = .error "Too many redirects") := by
  constructor
  · intro hchain hdone
    rw [fetchUrl_redirect_step env (urls 0) (urls 1) 0 (by omega) (hchain 0 (by omega)),
      fetchUrl_redirect_step env (urls 1) (urls 2) 1 (by omega) (hchain 1 (by omega)),
      fetchUrl_redirect_step env (urls 2) (urls 3) 2 (by omega) (hchain 2 (by omega)),
      fetchUrl_redirect_step env (urls 3) (urls 4) 3 (by omega) (hchain 3 (by omega))]
    exact fetchUrl_done env (urls 4) 4 (by omega) hdone
  · intro hchain
    rw [fetchUrl_redirect_step env (urls 0) (urls 1) 0 (by omega) (hchain 0 (by omega)),
      fetchUrl_redirect_step env (urls 1) (urls 2) 1 (by omega) (hchain 1 (by omega)),
      fetchUrl_redirect_step env (urls 2) (urls 3) 2 (by omega) (hchain 2 (by omega)),
      fetchUrl_redirect_step env (urls 3) (urls 4) 3 (by omega) (hchain 3 (by omega)),
      fetchUrl_redirect_step env (urls 4) (urls 5) 4 (by omega) (hchain 4 (by omega)),
      fetchUrl_redirect_step env (urls 5) (urls 6) 5 (by omega) (hchain 5 (by omega))]
    exact fetchUrl_exhausted env (urls 6) 6 (by omega)

/-- A four-hop redirect environment ending at a 200 response. -/
def envFourHops : String → HttpResponse := fun u =>
  if u = "https://fs.blog/r0" then ⟨301, some "https://fs.blog/r1", ""⟩
  else if u = "https://fs.blog/r1" then ⟨301, some "https://fs.blog/r2", ""⟩
  else if u = "https://fs.blog/r2" then ⟨302, some "https://fs.blog/r3", ""⟩
  else if u = "https://fs.blog/r3" then ⟨301, some "https://fs.blog/r4", ""⟩
  else ⟨200, none, "final body"⟩

/-- An environment that always redirects to the same URL (a cycle). -/
def envCycle : String → HttpResponse :=
  fun _ => ⟨301, some "https://fs.blog/loop", ""⟩

/-- Witness for C7: the two scenarios at concrete environments. -/
theorem fetch_redirect_budget_witness :
    fetchUrl envFourHops "https://fs.blog/r0" 0 =
        .ok (envFourHops ((fun i => "https://fs.blog/r" ++ toString i) 4)).body ∧
      fetchUrl envCycle "https://fs.blog/loop" 0 = .error "Too many redirects" :=
  ⟨(fetch_redirect_budget envFourHops
        (fun i => "https://fs.blog/r" ++ toString i)).1 (by decide) (by decide),
    (fetch_redirect_budget envCycle (fun _ => "https://fs.blog/loop")).2 (by decide)⟩

/-- C10: any response that is not a 3xx with a (truthy) `Location`
header resolves successfully with the body as text — in particular 4xx
and 5xx error pages are handed back to the caller as if they were
content. -/
theorem fetch_non_redirect_returns_body (env : String → HttpResponse) (url : String)
    (h : ¬ (300 ≤ (env url).statusCode ∧ (env url).statusCode < 400 ∧
        locationTruthy (env url).location = true)) :
    fetchUrl env url 0 = .ok (env url).body :=
  fetchUrl_done env url 0 (by omega) h

/-- Witness for C10: a 404 error page is returned as content. -/
theorem fetch_non_redirect_witness :
    fetchUrl (fun _ => ⟨404, none, "<html>Not Found</html>"⟩)
        "https://fs.blog/brain-food/missing/" 0 =
      .ok "<html>Not Found</html>" :=
  fetch_non_redirect_returns_body (fun _ => ⟨404, none, "<html>Not Found</html>"⟩)
    "https://fs.blog/brain-food/missing/" (by decide)

/-! ### State-file loading (`main`, source lines 99-102 and 178-181)

`main` starts from the default state, overwrites it with
`JSON.parse(readFileSync(...))` only when the file exists, and any
exception thrown there rejects `main()`'s promise, reaching
`main().catch(...)` which exits the process with status 1.  The file
system and `JSON.parse` are abstracted: the state file is `none` when
absent, and `parseJson` is the (platform-provided) JSON parser, `none`
modelling a thrown `SyntaxError`. -/

def defaultState : StoreState := { lastUpdated := "2025-12-01", quotes := [] }

def loadState (file : Option String) (parseJson : String → Option StoreState) :
    Except String StoreState :=
  match file with
  | none => .ok defaultState
  | some content =>
    match parseJson content with
    | some st => .ok st
    | none => .error "invalid JSON in state file"

/-- The process exit status of a run whose state-file load is followed
by the rest of the pipeline (`rest`), under `main().catch(err =>
process.exit(1))`. -/
def runExitCode (file : Option String) (parseJson : String → Option StoreState)
    (rest : StoreState → Except String Unit) : Nat :=
  match loadState file parseJson with
  | .error _ => 1
  | .ok st =>
    match rest st with
    | .ok _ => 0
    | .error _ => 1

/-- C9: a missing state file yields the default state
`{ lastUpdated: "2025-12-01", quotes: [] }` and the run proceeds, while
a present-but-unparseable file makes the load fail (it never silently
produces a state, default or otherwise) and the process exits with
status 1. -/
theorem state_load_failure_modes (parseJson : String → Option StoreState)
    (rest : StoreState → Except String Unit) :
    loadState none parseJson = .ok { lastUpdated := "2025-12-01", quotes := [] } ∧
    (∀ s, parseJson s = none →
      (∀ st, loadState (some s) parseJson ≠ .ok st) ∧
        runExitCode (some s) parseJson rest = 1) := by
  refine ⟨rfl, ?_⟩
  intro s hs
  constructor
  · intro st
    simp only [loadState, hs]
    intro h
    cases h
  · simp only [runExitCode, loadState, hs]

/-- Witness for C9 at a concrete corrupt file content. -/
theorem state_load_failure_witness :
    (∀ st, loadState (some "\x7b corrupt") (fun _ => none) ≠ .ok st) ∧
      runExitCode (some "\x7b corrupt") (fun _ => none) (fun _ => .ok ()) = 1 :=
  (state_load_failure_modes (fun _ => none) (fun _ => .ok ())).2 "\x7b corrupt" rfl
